import Mathlib

/-!
Shallow embedding of the generator library in `generators.js` and proofs of
the specification's properties about it.

Generators are modelled on finite inputs as the list of values they yield.
A generator body that can `throw` is modelled by a `Trace`: the list of
values yielded before the run ends together with the error (if any) that
ended it.  JavaScript iterables are lists; the library's conversion of an
iterable argument to an array (`Array.isArray(x) ? x : [...x]`) is the
identity on this model.
-/

namespace Generators

universe u v

/-- Run of a JS generator on a finite input: the values yielded in order,
and `some msg` when the run ended by throwing an error after those yields. -/
structure Trace (α : Type u) where
  out : List α
  err : Option String
  deriving DecidableEq, Repr

/-- A run that throws immediately, yielding nothing. -/
def Trace.throw {α : Type u} (msg : String) : Trace α := ⟨[], some msg⟩

/-- A run that yields the given values and finishes normally. -/
def Trace.done {α : Type u} (xs : List α) : Trace α := ⟨xs, none⟩

/-- Transform each yielded value (JS `prefix`/`itermap` re-yield one value per
input value, so an error position is preserved). -/
def Trace.map {α : Type u} {β : Type v} (f : α → β) (t : Trace α) : Trace β :=
  ⟨t.out.map f, t.err⟩

/-- Sequencing of two generator runs (`yield* a` followed by `yield* b`):
if the first run throws, the second never starts. -/
def Trace.append {α : Type u} (t₁ t₂ : Trace α) : Trace α :=
  match t₁.err with
  | some e => ⟨t₁.out, some e⟩
  | none => ⟨t₁.out ++ t₂.out, t₂.err⟩

/-- `for (x of xs) yield* f x` over a plain list: runs `f` on each element in
order, stopping at the first run of `f` that throws. -/
def Trace.bindList {α : Type u} {β : Type v} (f : α → Trace β) : List α → Trace β
  | [] => ⟨[], none⟩
  | a :: as =>
    match (f a).err with
    | some e => ⟨(f a).out, some e⟩
    | none => ⟨(f a).out ++ (Trace.bindList f as).out, (Trace.bindList f as).err⟩

/-- `for (x of g) yield* f x` where the source `g` is itself a generator run:
the source's values are processed in order; an error of the source surfaces
after all its yielded values have been processed, unless a run of `f` throws
first. -/
def Trace.forIn {α : Type u} {β : Type v} (t : Trace α) (f : α → Trace β) : Trace β :=
  match (Trace.bindList f t.out).err with
  | some e => ⟨(Trace.bindList f t.out).out, some e⟩
  | none => ⟨(Trace.bindList f t.out).out, t.err⟩

/-- The `RangeError` message thrown by `array_combinations`. -/
def combinationsMsg : String :=
  "n must be greater than 0 and less than the iteratable length"

/-- The `RangeError` message thrown by `array_partitions`. -/
def partitionsMsg : String :=
  "sum of sizes must be equal to the iterator length"

/-- Embedding of `array_combinations(array, n, unused)` from `generators.js`
with `return_unused = false` (so `unused` is `false` throughout and the
`n == 1 && unused` and `unused` branches never apply).  `n` is an `Int`
because the JS code compares it against `0` and the array length before any
other use. -/
def array_combinations {α : Type u} (array : List α) (n : Int) : Trace (List α) :=
  if n ≤ 0 ∨ (array.length : Int) < n then
    Trace.throw combinationsMsg
  else if n = 1 then
    Trace.done (array.map fun item => [item])
  else if n = (array.length : Int) then
    Trace.done [array]
  else
    match array with
    | [] => Trace.throw combinationsMsg
    -- the `[]` case is unreachable: an empty array always takes the first branch
    | item :: rest =>
      Trace.append ((array_combinations rest (n - 1)).map fun c => item :: c)
        (array_combinations rest n)

/-- Embedding of `array_combinations(array, n, unused)` from `generators.js`
with `return_unused = true`.  Each yielded JS array `[...c, u]` (a combination
with the unused elements pushed as a final entry) is modelled as the pair
`(c, u)`.  The accumulator `unused` is threaded functionally: the JS
`push`/`pop` pair around the second recursive call becomes passing
`unused ++ [item]` to it. -/
def array_combinations_unused {α : Type u} (array : List α) (n : Int) (unused : List α) :
    Trace (List α × List α) :=
  if n ≤ 0 ∨ (array.length : Int) < n then
    Trace.throw combinationsMsg
  else if n = 1 then
    Trace.done (array.enum.map fun p => ([p.2], unused ++ array.eraseIdx p.1))
  else if n = (array.length : Int) then
    Trace.done [(array, unused)]
  else
    match array with
    | [] => Trace.throw combinationsMsg
    -- unreachable, as in `array_combinations`
    | item :: rest =>
      Trace.append
        ((array_combinations_unused rest (n - 1) unused).map fun p => (item :: p.1, p.2))
        (array_combinations_unused rest n (unused ++ [item]))

/-- Embedding of the exported `combinations(iterable, n)` (the default
`return_unused = false`): on a list pool the iterable-to-array conversion is
the identity. -/
def combinations {α : Type u} (pool : List α) (n : Int) : Trace (List α) :=
  array_combinations pool n

/-- Embedding of the exported `combinations(iterable, n, true)`: the initial
unused accumulator is the empty array. -/
def combinations_unused {α : Type u} (pool : List α) (n : Int) : Trace (List α × List α) :=
  array_combinations_unused pool n []

example : combinations [1, 2, 3, 4] (2 : Int) =
    Trace.done [[1, 2], [1, 3], [1, 4], [2, 3], [2, 4], [3, 4]] := by decide

example : combinations [1, 2] (0 : Int) = Trace.throw combinationsMsg := by decide

example : combinations_unused [1, 2, 3] (2 : Int) =
    Trace.done [([1, 2], [3]), ([1, 3], [2]), ([2, 3], [1])] := by decide

/-- Embedding of `array_partitions(array, sizes)` from `generators.js`.
Sizes are `Int` as in the JS code (they are compared with lengths and passed
to `array_combinations`).  For each combination-with-unused `(c, u)`, the JS
code pops `u` off the yielded array, recurses on a copy of `u`, and re-yields
`[c, ...p]` for every recursive partition `p`.  (The JS code never terminates
on an empty `sizes`; that case lies outside the modelled domain and is mapped
to an empty run.) -/
def array_partitions {α : Type u} (array : List α) (sizes : List Int) :
    Trace (List (List α)) :=
  match sizes with
  | [] => Trace.done []
  | [s] =>
    if s ≠ (array.length : Int) then Trace.throw partitionsMsg
    else Trace.done [[array]]
  | s :: s' :: rest =>
    Trace.forIn (array_combinations_unused array s []) fun cu =>
      (array_partitions cu.2 (s' :: rest)).map fun p => cu.1 :: p

/-- Embedding of the exported `partitions(iterable, sizes)`: the
iterable-to-array conversion is the identity on a list pool. -/
def partitions {α : Type u} (pool : List α) (sizes : List Int) : Trace (List (List α)) :=
  array_partitions pool sizes

example : partitions [1, 2, 3, 4] [(2 : Int), 2] =
    Trace.done [[[1, 2], [3, 4]], [[1, 3], [2, 4]], [[1, 4], [2, 3]],
      [[2, 3], [1, 4]], [[2, 4], [1, 3]], [[3, 4], [1, 2]]] := by decide

example : partitions [1, 2] [(0 : Int), 2] = Trace.throw combinationsMsg := by decide

example : partitions [1, 2] [(2 : Int), 0] = Trace.done [[[1, 2], []]] := by decide

/-- For each position `i` of the array, the pair of `array[i]` and the array
with position `i` spliced out, in position order: the elements visited by the
`for` loop of `array_permutations` together with the spliced remainder passed
to its recursive call. -/
def picks {α : Type u} : List α → List (α × List α)
  | [] => []
  | a :: as => (a, as) :: (picks as).map fun p => (p.1, a :: p.2)

/-- Embedding of `array_permutations(array)` from `generators.js`.  The JS
recursion removes one element per level, so its depth is bounded by the array
length; `fuel` makes that bound explicit (structurally), and
`array_permutations` below instantiates `fuel` with the array length.  The
`fuel = 0` fallback is never reached when `fuel ≥ array.length`. -/
def permAux {α : Type u} (fuel : Nat) (array : List α) : List (List α) :=
  if array.length ≤ 1 then [array]
  else
    match fuel with
    | 0 => []
    | fuel' + 1 =>
      ((picks array).map fun p => (permAux fuel' p.2).map fun q => p.1 :: q).flatten

/-- Embedding of the exported `permutations(iterable)`: all recursive levels
of `array_permutations`, run with enough fuel for the whole array. -/
def array_permutations {α : Type u} (array : List α) : List (List α) :=
  permAux array.length array

/-- The exported `permutations(iterable)`: identity conversion on a list
pool, then `array_permutations`. -/
def permutations {α : Type u} (iterable : List α) : List (List α) :=
  array_permutations iterable

example : permutations [1, 2, 3] =
    [[1, 2, 3], [1, 3, 2], [2, 1, 3], [2, 3, 1], [3, 1, 2], [3, 2, 1]] := by decide

/-- The loop of `take(iterable, indices)` from `generators.js`: walk the
enumerated source; on a position match yield the value and fetch the next
index, returning as soon as the index iterator is exhausted.  The enumerated
source is passed as explicit `(position, value)` pairs. -/
def takeGo {α : Type u} : List (Nat × α) → Nat → List Nat → List α
  | [], _, _ => []
  | (i, v) :: more, idx, rest =>
    if i = idx then
      v ::
        match rest with
        | [] => []
        | idx' :: rest' => takeGo more idx' rest'
    else takeGo more idx rest

/-- Embedding of the exported `take(iterable, indices)`: pull the first index
(returning at once when there is none), then run the loop over the enumerated
source.  Indices are `Nat` (the spec restricts to non-negative indices; a JS
index that never equals a position simply never matches). -/
def take {α : Type u} (iterable : List α) (indices : List Nat) : List α :=
  match indices with
  | [] => []
  | idx :: rest => takeGo iterable.enum idx rest

example : take [10, 20, 30, 40, 50, 60] [0, 2, 4] = [10, 30, 50] := by decide

example : take [10] [0, 1, 2] = [10] := by decide

/-- Embedding of `array_product(arrays)` from `product` in `generators.js`:
one array yields singletons (`itermap`); otherwise each element of the first
array is prefixed (`prefix`) to every tuple of the product of the rest.  The
exported `product` first spreads iterator arguments into arrays, which is the
identity here; with no arguments the JS code throws a `TypeError`
(`arrays[0]` is `undefined`), a case outside the spec's `k ≥ 1` domain and
mapped to the empty output. -/
def array_product {α : Type u} : List (List α) → List (List α)
  | [] => []
  | [arr] => arr.map fun item => [item]
  | arr :: rest₀ :: rest =>
    arr.flatMap fun item => (array_product (rest₀ :: rest)).map fun p => item :: p

/-- Modelled from the spec: the recursive reference definition of the
cartesian product (§4.4 `product`): one sequence yields each element wrapped
as a singleton tuple; for `k > 1` sequences, for each element `a` of the
first, every tuple `[a, ...t]` for `t` in the product of the remaining
`k − 1`. -/
def productSpec {α : Type u} : List (List α) → List (List α)
  | [] => []
  | [arr] => arr.map fun a => [a]
  | arr :: rest₀ :: rest =>
    arr.flatMap fun a => (productSpec (rest₀ :: rest)).map fun t => a :: t

/-- The exported `product(...iterables)`: spreading iterator arguments into
arrays is the identity on lists, then `array_product`. -/
def product {α : Type u} (iterables : List (List α)) : List (List α) :=
  array_product iterables

example : product [[1, 2], [5, 6]] = [[1, 5], [1, 6], [2, 5], [2, 6]] := by decide

/-- A JS iterable argument as `cycle` can observe it: either a replayable
iterable (each `for`/`yield*` obtains a fresh iterator over the same
elements) or a single-use iterator (consumed by its first traversal). -/
inductive JsIterable (α : Type u) where
  | replayable : List α → JsIterable α
  | iterator : List α → JsIterable α
  deriving DecidableEq, Repr

/-- One `yield*` pass over a JS iterable: the values it produces and the
state of the iterable afterwards.  A replayable iterable is unchanged; a
single-use iterator is left exhausted. -/
def JsIterable.drain {α : Type u} : JsIterable α → List α × JsIterable α
  | .replayable xs => (xs, .replayable xs)
  | .iterator xs => (xs, .iterator [])

/-- Embedding of `cycle(iterable, n)` from `generators.js` for a finite
count: `while (n-- > 0) yield* iterable`, with the iterable's single-use
state threaded through the passes.  There is no materialization step. -/
def cycle {α : Type u} : JsIterable α → Nat → List α
  | _, 0 => []
  | it, n + 1 => it.drain.1 ++ cycle it.drain.2 n

example : cycle (JsIterable.replayable [1, 2, 3]) 2 = [1, 2, 3, 1, 2, 3] := by decide

example : cycle (JsIterable.iterator [1, 2, 3]) 2 = [1, 2, 3] := by decide

/-- One step of `zip`'s loop: call `next()` on every iterator; `some` of the
values and advanced iterators when none is exhausted (`result.every(r =>
!r.done)`), `none` otherwise. -/
def nexts {α : Type u} : List (List α) → Option (List α × List (List α))
  | [] => some ([], [])
  | [] :: _ => none
  | (a :: s) :: rest =>
    match nexts rest with
    | none => none
    | some (vs, ts) => some (a :: vs, s :: ts)

/-- Embedding of `zip(...iterables)` from `generators.js` as a step-bounded
run, since the JS loop `while (true)` need not terminate: after `fuel` loop
iterations, the tuples yielded so far and whether the loop has already
returned. -/
def zipRun {α : Type u} : List (List α) → Nat → List (List α) × Bool
  | _, 0 => ([], false)
  | seqs, fuel + 1 =>
    match nexts seqs with
    | none => ([], true)
    | some (vs, ts) => ((vs :: (zipRun ts fuel).1), (zipRun ts fuel).2)

example : zipRun [[0, 1, 2], [5, 6, 7, 8]] 17 = ([[0, 5], [1, 6], [2, 7]], true) := by
  decide

example : zipRun ([] : List (List Nat)) 3 = ([[], [], []], false) := by decide

/-!
### Correctness of `combinations`

`combRef r l` is the standard recursive characterization of the list of
`r`-element sublists of `l` in lexicographic position order; we prove that
`array_combinations` produces exactly it whenever `1 ≤ r ≤ |l|`, and then
derive the counting, ordering and error-freedom properties from it.
-/

/-- All `r`-element sublists of `l`, in lexicographic order of positions:
those containing the head (head prefixed to the `(r-1)`-sublists of the
tail) followed by those avoiding it. -/
def combRef {α : Type u} : Nat → List α → List (List α)
  | 0, _ => [[]]
  | _ + 1, [] => []
  | r + 1, a :: as => ((combRef r as).map fun c => a :: c) ++ combRef (r + 1) as

theorem combRef_eq_nil_of_length_lt {α : Type u} :
    ∀ (r : Nat) (l : List α), l.length < r → combRef r l = [] := by
  intro r l
  induction l generalizing r with
  | nil =>
    intro h
    match r, h with
    | r + 1, _ => rfl
  | cons a as ih =>
    intro h
    match r, h with
    | r + 1, h =>
      have h₁ : as.length < r := by simpa using Nat.lt_of_succ_lt_succ h
      simp [combRef, ih r h₁, ih (r + 1) (Nat.lt_succ_of_lt h₁)]

theorem combRef_self {α : Type u} : ∀ l : List α, combRef l.length l = [l] := by
  intro l
  induction l with
  | nil => rfl
  | cons a as ih =>
    simp [combRef, ih, combRef_eq_nil_of_length_lt (as.length + 1) as (Nat.lt_succ_self _)]

theorem combRef_one {α : Type u} : ∀ l : List α, combRef 1 l = l.map fun a => [a] := by
  intro l
  induction l with
  | nil => rfl
  | cons a as ih => simp [combRef, ih]

theorem combRef_length {α : Type u} :
    ∀ (r : Nat) (l : List α), (combRef r l).length = l.length.choose r := by
  intro r l
  induction l generalizing r with
  | nil => cases r <;> simp [combRef]
  | cons a as ih =>
    cases r with
    | zero => simp [combRef]
    | succ r => simp [combRef, ih, Nat.choose_succ_succ]

theorem combRef_sublist {α : Type u} :
    ∀ (r : Nat) (l : List α), ∀ c ∈ combRef r l, c.Sublist l := by
  intro r l
  induction l generalizing r with
  | nil =>
    cases r with
    | zero => intro c hc; simp only [combRef, List.mem_singleton] at hc; simp [hc]
    | succ r => intro c hc; simp [combRef] at hc
  | cons a as ih =>
    cases r with
    | zero =>
      intro c hc
      simp only [combRef, List.mem_singleton] at hc
      simp [hc]
    | succ r =>
      intro c hc
      simp only [combRef, List.mem_append, List.mem_map] at hc
      rcases hc with ⟨c', hc', rfl⟩ | hc
      · exact (ih r c' hc').cons₂ a
      · exact (ih (r + 1) c hc).cons a

theorem combRef_length_mem {α : Type u} :
    ∀ (r : Nat) (l : List α), ∀ c ∈ combRef r l, c.length = r := by
  intro r l
  induction l generalizing r with
  | nil =>
    cases r with
    | zero => intro c hc; simp only [combRef, List.mem_singleton] at hc; simp [hc]
    | succ r => intro c hc; simp [combRef] at hc
  | cons a as ih =>
    cases r with
    | zero =>
      intro c hc
      simp only [combRef, List.mem_singleton] at hc
      simp [hc]
    | succ r =>
      intro c hc
      simp only [combRef, List.mem_append, List.mem_map] at hc
      rcases hc with ⟨c', hc', rfl⟩ | hc
      · simp [ih r c' hc']
      · exact ih (r + 1) c hc

theorem combRef_pairwise_lex :
    ∀ (l : List Nat), l.Pairwise (· < ·) →
      ∀ r, (combRef r l).Pairwise (List.Lex (· < ·)) := by
  intro l
  induction l with
  | nil =>
    intro _ r
    cases r <;> simp [combRef]
  | cons a as ih =>
    intro hl r
    have ha : ∀ b ∈ as, a < b := (List.pairwise_cons.mp hl).1
    have has : as.Pairwise (· < ·) := (List.pairwise_cons.mp hl).2
    cases r with
    | zero => simp [combRef]
    | succ r =>
      simp only [combRef]
      rw [List.pairwise_append]
      refine ⟨(ih has r).map (fun c => a :: c) (fun _ _ h => List.Lex.cons h),
        ih has (r + 1), ?_⟩
      intro x hx y hy
      obtain ⟨c, _, rfl⟩ := List.mem_map.mp hx
      have hylen : y.length = r + 1 := combRef_length_mem (r + 1) as y hy
      match y, hylen with
      | b :: y', _ =>
        have hb : b ∈ as := (combRef_sublist (r + 1) as _ hy).subset (List.mem_cons_self b y')
        exact List.Lex.rel (ha b hb)

theorem array_combinations_eq_combRef {α : Type u} :
    ∀ (l : List α) (r : Nat), 1 ≤ r → r ≤ l.length →
      array_combinations l (r : Int) = Trace.done (combRef r l) := by
  intro l
  induction l with
  | nil =>
    intro r h1 h2
    simp only [List.length_nil] at h2
    omega
  | cons a as ih =>
    intro r h1 h2
    rw [array_combinations]
    rw [if_neg (by omega)]
    by_cases hr1 : r = 1
    · subst hr1
      rw [if_pos (by norm_num)]
      rw [combRef_one]
    · rw [if_neg (by exact_mod_cast hr1)]
      by_cases hrl : r = (a :: as).length
      · rw [if_pos (by exact_mod_cast hrl)]
        subst hrl
        rw [combRef_self]
      · rw [if_neg (by exact_mod_cast hrl)]
        match r, h1, hr1 with
        | r' + 1, _, hr1 =>
          have hr' : 1 ≤ r' := by omega
          have hlen : r' + 1 ≤ as.length := by
            simp only [List.length_cons] at h2 hrl
            omega
          have e₁ : ((r' + 1 : Nat) : Int) - 1 = ((r' : Nat) : Int) := by push_cast; ring
          rw [e₁, ih r' hr' (by omega), ih (r' + 1) (by omega) hlen]
          simp [Trace.map, Trace.append, Trace.done, combRef]

theorem lex_lt_irrefl : ∀ l : List Nat, ¬ List.Lex (· < ·) l l := by
  intro l
  induction l with
  | nil => exact fun h => by cases h
  | cons a as ih =>
    intro h
    cases h with
    | cons h' => exact ih h'
    | rel h' => exact lt_irrefl a h'

theorem lex_lt_ne {l₁ l₂ : List Nat} (h : List.Lex (· < ·) l₁ l₂) : l₁ ≠ l₂ := by
  intro e
  exact lex_lt_irrefl l₂ (e ▸ h)

/-- C1 (corrected: the code throws a `RangeError` when `r = 0`, so `r ≥ 1`
is required): for `n ≥ r ≥ 1`, `combinations(pool, r)` on a pool of `n`
positions yields, without error, exactly `n!/(r!(n−r)!)` outputs, each a
length-`r` list of strictly increasing pool positions, all pairwise
distinct, enumerated in lexicographic order of their index vectors; and
`combinations([a,b,c,d], 2)` yields `[a,b],[a,c],[a,d],[b,c],[b,d],[c,d]`
in exactly that order. -/
theorem combinations_spec (n r : Nat) (h1 : 1 ≤ r) (h2 : r ≤ n) :
    (combinations (List.range n) (r : Int)).err = none ∧
    (combinations (List.range n) (r : Int)).out.length =
      n.factorial / (r.factorial * (n - r).factorial) ∧
    (∀ c ∈ (combinations (List.range n) (r : Int)).out,
        c.length = r ∧ c.Pairwise (· < ·) ∧ c.Sublist (List.range n)) ∧
    (combinations (List.range n) (r : Int)).out.Pairwise (List.Lex (· < ·)) ∧
    (combinations (List.range n) (r : Int)).out.Pairwise (· ≠ ·) ∧
    ∀ {β : Type} (a b c d : β),
      combinations [a, b, c, d] (2 : Int) =
        Trace.done [[a, b], [a, c], [a, d], [b, c], [b, d], [c, d]] := by
  have e : combinations (List.range n) (r : Int) = Trace.done (combRef r (List.range n)) :=
    array_combinations_eq_combRef (List.range n) r h1 (by simpa using h2)
  have hlex : (combRef r (List.range n)).Pairwise (List.Lex (· < ·)) :=
    combRef_pairwise_lex (List.range n) (List.pairwise_lt_range n) r
  refine ⟨by simp [e, Trace.done], ?_, ?_, ?_, ?_, ?_⟩
  · rw [e]
    show (combRef r (List.range n)).length = _
    rw [combRef_length, List.length_range, Nat.choose_eq_factorial_div_factorial h2]
  · rw [e]
    intro c hc
    exact ⟨combRef_length_mem r _ c hc,
      (List.pairwise_lt_range n).sublist (combRef_sublist r _ c hc),
      combRef_sublist r _ c hc⟩
  · rw [e]; exact hlex
  · rw [e]; exact hlex.imp lex_lt_ne
  · intro β a b c d; rfl

theorem combinations_spec_witness :
    (combinations (List.range 4) ((2 : Nat) : Int)).out.length =
      Nat.factorial 4 / (Nat.factorial 2 * Nat.factorial (4 - 2)) :=
  (combinations_spec 4 2 (by norm_num) (by norm_num)).2.1

/-- C1 counterexample: the claim as stated includes `r = 0` (for which it
predicts `1 = n!/(0!·n!)` output), but `combinations([x], 0)` throws a
`RangeError` and yields nothing. -/
theorem combinations_r_zero_counterexample :
    combinations ([0] : List Nat) ((0 : Nat) : Int) = Trace.throw combinationsMsg ∧
    (combinations ([0] : List Nat) ((0 : Nat) : Int)).out.length ≠ Nat.choose 1 0 := by
  decide

/-- C6 (confirmed): `combinations(pool, r)` throws a `RangeError` before
yielding anything exactly when `r ≤ 0` or `r > |pool|`; for `1 ≤ r ≤ |pool|`
the whole enumeration finishes with no error. -/
theorem combinations_error_iff {α : Type u} (pool : List α) (r : Int) :
    ((r ≤ 0 ∨ (pool.length : Int) < r) →
        combinations pool r = Trace.throw combinationsMsg) ∧
    (1 ≤ r → r ≤ (pool.length : Int) → (combinations pool r).err = none) := by
  constructor
  · intro h
    rw [combinations, array_combinations.eq_def, if_pos h]
  · intro h1 h2
    have hr : r = ((r.toNat : Nat) : Int) := by omega
    rw [combinations, hr,
      array_combinations_eq_combRef pool r.toNat (by omega) (by omega)]
    rfl

theorem Trace.err_map {α : Type u} {β : Type v} (f : α → β) (t : Trace α) :
    (t.map f).err = t.err := rfl

theorem Trace.out_map {α : Type u} {β : Type v} (f : α → β) (t : Trace α) :
    (t.map f).out = t.out.map f := rfl

theorem Trace.append_of_err_none {α : Type u} {t₁ t₂ : Trace α} (h : t₁.err = none) :
    Trace.append t₁ t₂ = ⟨t₁.out ++ t₂.out, t₂.err⟩ := by
  unfold Trace.append
  rw [h]

theorem get_cons_eraseIdx_perm {α : Type u} :
    ∀ (l : List α) (i : Nat) (h : i < l.length),
      (l.get ⟨i, h⟩ :: l.eraseIdx i).Perm l := by
  intro l
  induction l with
  | nil => intro i h; simp at h
  | cons a as ih =>
    intro i h
    cases i with
    | zero => simp
    | succ i =>
      have h' : i < as.length := by simpa using h
      exact (List.Perm.swap a _ _).trans ((ih i h').cons a)

theorem array_combinations_unused_cons_else {α : Type u} (item : α) (rest : List α)
    (n : Int) (unused : List α)
    (h : ¬(n ≤ 0 ∨ (((item :: rest).length : Nat) : Int) < n)) (h1 : n ≠ 1)
    (h2 : n ≠ (((item :: rest).length : Nat) : Int)) :
    array_combinations_unused (item :: rest) n unused =
      Trace.append
        ((array_combinations_unused rest (n - 1) unused).map fun p => (item :: p.1, p.2))
        (array_combinations_unused rest n (unused ++ [item])) := by
  rw [array_combinations_unused.eq_def, if_neg h, if_neg h1, if_neg h2]

theorem array_combinations_unused_spec {α : Type u} :
    ∀ (l : List α) (r : Nat) (acc : List α), 1 ≤ r → r ≤ l.length →
      (array_combinations_unused l (r : Int) acc).err = none ∧
      (array_combinations_unused l (r : Int) acc).out.length = l.length.choose r ∧
      ∀ p ∈ (array_combinations_unused l (r : Int) acc).out,
        p.1.length = r ∧ (p.1 ++ p.2).Perm (acc ++ l) := by
  intro l
  induction l with
  | nil =>
    intro r acc h1 h2
    simp only [List.length_nil] at h2
    omega
  | cons a as ih =>
    intro r acc h1 h2
    by_cases hr1 : r = 1
    · subst hr1
      rw [array_combinations_unused.eq_def, if_neg (by omega), if_pos (by norm_num)]
      refine ⟨rfl, by simp [Trace.done], ?_⟩
      intro p hp
      simp only [Trace.done, List.mem_map] at hp
      obtain ⟨⟨i, v⟩, hiv, rfl⟩ := hp
      have hget : (a :: as)[i]? = some v := List.mem_enum_iff_getElem?.mp hiv
      obtain ⟨hi, hv⟩ := List.getElem?_eq_some.mp hget
      refine ⟨rfl, ?_⟩
      show (v :: (acc ++ (a :: as).eraseIdx i)).Perm (acc ++ (a :: as))
      refine List.perm_middle.symm.trans (List.Perm.append_left acc ?_)
      rw [← hv]
      exact get_cons_eraseIdx_perm (a :: as) i hi
    · by_cases hrl : r = (a :: as).length
      · rw [array_combinations_unused.eq_def, if_neg (by omega),
          if_neg (by exact_mod_cast hr1), if_pos (by exact_mod_cast hrl)]
        refine ⟨rfl, ?_, ?_⟩
        · simp [Trace.done, hrl, Nat.choose_self]
        · intro p hp
          simp only [Trace.done, List.mem_singleton] at hp
          subst hp
          exact ⟨hrl.symm, List.perm_append_comm⟩
      · match r, h1, hr1 with
        | r' + 1, _, hr1 =>
          have hr' : 1 ≤ r' := by omega
          have hlen : r' + 1 ≤ as.length := by
            simp only [List.length_cons] at h2 hrl
            omega
          have e₁ : ((r' + 1 : Nat) : Int) - 1 = ((r' : Nat) : Int) := by push_cast; ring
          rw [array_combinations_unused_cons_else a as _ acc (by omega)
            (by exact_mod_cast hr1) (by exact_mod_cast hrl), e₁]
          obtain ⟨e1, l1, m1⟩ := ih r' acc hr' (by omega)
          obtain ⟨e2, l2, m2⟩ := ih (r' + 1) (acc ++ [a]) (by omega) hlen
          rw [Trace.append_of_err_none (by rw [Trace.err_map]; exact e1)]
          refine ⟨e2, ?_, ?_⟩
          · simp only [List.length_append, List.length_map, Trace.out_map, l1, l2]
            simp [Nat.choose_succ_succ]
          · intro p hp
            simp only [List.mem_append, Trace.out_map, List.mem_map] at hp
            rcases hp with ⟨q, hq, rfl⟩ | hp
            · obtain ⟨hq1, hq2⟩ := m1 q hq
              refine ⟨by simp [hq1], ?_⟩
              show (a :: (q.1 ++ q.2)).Perm (acc ++ a :: as)
              exact (hq2.cons a).trans List.perm_middle.symm
            · obtain ⟨hp1, hp2⟩ := m2 p hp
              refine ⟨hp1, hp2.trans ?_⟩
              rw [List.append_assoc]
              exact List.Perm.refl _

theorem Trace.bindList_of_err_none {α : Type u} {β : Type v} (f : α → Trace β) :
    ∀ xs : List α, (∀ a ∈ xs, (f a).err = none) →
      Trace.bindList f xs = ⟨(xs.map fun a => (f a).out).flatten, none⟩ := by
  intro xs
  induction xs with
  | nil => intro _; rfl
  | cons a as ih =>
    intro h
    have ha := h a (List.mem_cons_self a as)
    have has := ih fun b hb => h b (List.mem_cons_of_mem a hb)
    rw [Trace.bindList, ha, has]
    simp

theorem Trace.bindList_cons_of_err {α : Type u} {β : Type v} (f : α → Trace β)
    (a : α) (as : List α) {e : String} (h : (f a).err = some e) :
    Trace.bindList f (a :: as) = ⟨(f a).out, some e⟩ := by
  rw [Trace.bindList, h]

theorem Trace.forIn_of_err_none {α : Type u} {β : Type v} (t : Trace α) (f : α → Trace β)
    (h : (Trace.bindList f t.out).err = none) :
    Trace.forIn t f = ⟨(Trace.bindList f t.out).out, t.err⟩ := by
  unfold Trace.forIn
  rw [h]

theorem Trace.forIn_of_err_some {α : Type u} {β : Type v} (t : Trace α) (f : α → Trace β)
    {e : String} (h : (Trace.bindList f t.out).err = some e) :
    Trace.forIn t f = ⟨(Trace.bindList f t.out).out, some e⟩ := by
  unfold Trace.forIn
  rw [h]

theorem sum_map_mul_of_eq {β : Type v} :
    ∀ (xs : List β) (g : β → Nat) (q C : Nat), (∀ a ∈ xs, g a * q = C) →
      (xs.map g).sum * q = xs.length * C := by
  intro xs g q C
  induction xs with
  | nil => intro _; simp
  | cons a as ih =>
    intro h
    simp only [List.map_cons, List.sum_cons, List.length_cons]
    rw [Nat.add_mul, h a (List.mem_cons_self a as),
      ih fun b hb => h b (List.mem_cons_of_mem a hb)]
    ring

theorem int_length_le_sum :
    ∀ xs : List Int, (∀ x ∈ xs, 1 ≤ x) → (xs.length : Int) ≤ xs.sum := by
  intro xs
  induction xs with
  | nil => intro _; simp
  | cons a as ih =>
    intro h
    have ha := h a (List.mem_cons_self a as)
    have has := ih fun b hb => h b (List.mem_cons_of_mem a hb)
    simp only [List.length_cons, List.sum_cons]
    push_cast
    omega

theorem array_partitions_spec {α : Type u} :
    ∀ (sizes : List Int) (l : List α), sizes ≠ [] → (∀ s ∈ sizes, 1 ≤ s) →
      sizes.sum = (l.length : Int) →
      (array_partitions l sizes).err = none ∧
      (array_partitions l sizes).out.length *
          (sizes.map fun s => s.toNat.factorial).prod = l.length.factorial ∧
      ∀ P ∈ (array_partitions l sizes).out,
        P.map List.length = sizes.map Int.toNat ∧ P.flatten.Perm l := by
  intro sizes
  induction sizes with
  | nil => intro l h; exact absurd rfl h
  | cons s rest ih =>
    intro l _ hpos hsum
    have hs1 : 1 ≤ s := hpos s (List.mem_cons_self s rest)
    match rest with
    | [] =>
      have hs : s = (l.length : Int) := by simpa using hsum
      rw [array_partitions, if_neg (by omega)]
      have hsl : s.toNat = l.length := by omega
      refine ⟨rfl, ?_, ?_⟩
      · simp [Trace.done, hsl]
      · intro P hP
        simp only [Trace.done, List.mem_singleton] at hP
        subst hP
        exact ⟨by simp [hsl], by simp⟩
    | s' :: rest' =>
      have hsub1 : ∀ x ∈ s' :: rest', (1 : Int) ≤ x :=
        fun x hx => hpos x (List.mem_cons_of_mem s hx)
      have hsum' : (s' :: rest').sum = (l.length : Int) - s := by
        simp only [List.sum_cons] at hsum ⊢
        omega
      have hlen1 : (1 : Int) ≤ (s' :: rest').sum := by
        have := int_length_le_sum (s' :: rest') hsub1
        simp only [List.length_cons] at this
        omega
      have hsle : s ≤ (l.length : Int) - 1 := by omega
      have hcast : s = ((s.toNat : Nat) : Int) := by omega
      obtain ⟨ce, cl, cm⟩ :=
        array_combinations_unused_spec l s.toNat [] (by omega) (by omega)
      rw [← hcast] at ce cl cm
      have hmem : ∀ cu ∈ (array_combinations_unused l s []).out,
          cu.1.length = s.toNat ∧ (cu.1 ++ cu.2).Perm l ∧
            cu.2.length = l.length - s.toNat := by
        intro cu hcu
        obtain ⟨h1, h2⟩ := cm cu hcu
        have h2' : (cu.1 ++ cu.2).Perm l := by simpa using h2
        have hlen := h2'.length_eq
        simp only [List.length_append, h1] at hlen
        exact ⟨h1, h2', by omega⟩
      have hinner : ∀ cu ∈ (array_combinations_unused l s []).out,
          (array_partitions cu.2 (s' :: rest')).err = none ∧
          (array_partitions cu.2 (s' :: rest')).out.length *
              ((s' :: rest').map fun t => t.toNat.factorial).prod =
            (l.length - s.toNat).factorial ∧
          ∀ P ∈ (array_partitions cu.2 (s' :: rest')).out,
            P.map List.length = (s' :: rest').map Int.toNat ∧ P.flatten.Perm cu.2 := by
        intro cu hcu
        obtain ⟨_, _, hu⟩ := hmem cu hcu
        obtain ⟨i1, i2, i3⟩ := ih cu.2 (by simp) hsub1 (by rw [hsum', hu]; omega)
        exact ⟨i1, by rw [i2, hu], i3⟩
      have hf : ∀ cu ∈ (array_combinations_unused l s []).out,
          (((array_partitions cu.2 (s' :: rest')).map fun p => cu.1 :: p)).err = none :=
        fun cu hcu => (hinner cu hcu).1
      rw [array_partitions]
      rw [Trace.forIn_of_err_none _ _ (by rw [Trace.bindList_of_err_none _ _ hf])]
      rw [Trace.bindList_of_err_none _ _ hf]
      refine ⟨ce, ?_, ?_⟩
      · simp only [List.length_flatten, List.map_map]
        have hterm : ∀ cu ∈ (array_combinations_unused l s []).out,
            (array_partitions cu.2 (s' :: rest')).out.length *
                ((s' :: rest').map fun t => t.toNat.factorial).prod =
              (l.length - s.toNat).factorial :=
          fun cu hcu => (hinner cu hcu).2.1
        have hcomp :
            ((array_combinations_unused l s []).out.map
                (List.length ∘ fun cu =>
                  ((array_partitions cu.2 (s' :: rest')).map fun p => cu.1 :: p).out)) =
              ((array_combinations_unused l s []).out.map
                fun cu => (array_partitions cu.2 (s' :: rest')).out.length) := by
          apply List.map_congr_left
          intro cu _
          simp [Trace.out_map]
        rw [hcomp]
        have key := sum_map_mul_of_eq (array_combinations_unused l s []).out
          (fun cu => (array_partitions cu.2 (s' :: rest')).out.length)
          (((s' :: rest').map fun t => t.toNat.factorial).prod)
          ((l.length - s.toNat).factorial) hterm
        calc ((array_combinations_unused l s []).out.map
                fun cu => (array_partitions cu.2 (s' :: rest')).out.length).sum *
              ((s :: s' :: rest').map fun t => t.toNat.factorial).prod
            = (((array_combinations_unused l s []).out.map
                fun cu => (array_partitions cu.2 (s' :: rest')).out.length).sum *
                (((s' :: rest').map fun t => t.toNat.factorial).prod)) *
                s.toNat.factorial := by
              simp only [List.map_cons, List.prod_cons]
              ring
          _ = ((array_combinations_unused l s []).out.length *
                (l.length - s.toNat).factorial) * s.toNat.factorial := by rw [key]
          _ = l.length.choose s.toNat * s.toNat.factorial *
                (l.length - s.toNat).factorial := by rw [cl]; ring
          _ = l.length.factorial :=
              Nat.choose_mul_factorial_mul_factorial (by omega)
      · intro P hP
        simp only [List.mem_flatten, List.mem_map] at hP
        obtain ⟨O, ⟨cu, hcu, rfl⟩, hPO⟩ := hP
        simp only [Trace.out_map, List.mem_map] at hPO
        obtain ⟨P', hP', rfl⟩ := hPO
        obtain ⟨hc1, hc2, _⟩ := hmem cu hcu
        obtain ⟨m1, m2⟩ := (hinner cu hcu).2.2 P' hP'
        constructor
        · simp only [List.map_cons, m1, hc1]
        · show (cu.1 ++ P'.flatten).Perm l
          exact (List.Perm.append_left cu.1 m2).trans hc2

/-- C3 (corrected: satisfying `sum(sizes) = |pool|` is not enough — a
non-positive entry makes `partitions` throw, see the counterexample — so
every size must be at least 1): for a pool of `n` positions and a nonempty
vector of positive sizes summing to `n`, `partitions(pool, sizes)` yields,
without error, exactly `n!/∏ sizes[i]!` outputs; in every output the groups
have exactly the lengths in `sizes`, are pairwise disjoint, and their union
is the whole pool; and `partitions([1,2,3,4],[2,2])` yields `6` items, the
first `[[1,2],[3,4]]` and the last `[[3,4],[1,2]]`. -/
theorem partitions_spec (n : Nat) (sizes : List Nat) (h1 : sizes ≠ [])
    (h2 : ∀ s ∈ sizes, 1 ≤ s) (h3 : sizes.sum = n) :
    (partitions (List.range n) (sizes.map fun s : Nat => (s : Int))).err = none ∧
    (partitions (List.range n) (sizes.map fun s : Nat => (s : Int))).out.length =
      n.factorial / (sizes.map Nat.factorial).prod ∧
    (∀ P ∈ (partitions (List.range n) (sizes.map fun s : Nat => (s : Int))).out,
        P.map List.length = sizes ∧
        P.flatten.Perm (List.range n) ∧
        P.Pairwise List.Disjoint) ∧
    (partitions [1, 2, 3, 4] [(2 : Int), 2]).out.length = 6 ∧
    (partitions [1, 2, 3, 4] [(2 : Int), 2]).out.head? = some [[1, 2], [3, 4]] ∧
    (partitions [1, 2, 3, 4] [(2 : Int), 2]).out.getLast? = some [[3, 4], [1, 2]] := by
  have hmap : (sizes.map fun s : Nat => (s : Int)).map Int.toNat = sizes := by
    rw [List.map_map]
    simp [Function.comp_def]
  have hfac : ((sizes.map fun s : Nat => (s : Int)).map fun t => t.toNat.factorial).prod =
      (sizes.map Nat.factorial).prod := by
    rw [List.map_map]
    simp [Function.comp_def]
  obtain ⟨e, c, m⟩ := array_partitions_spec (sizes.map fun s : Nat => (s : Int)) (List.range n)
    (by cases sizes with
        | nil => exact absurd rfl h1
        | cons a as => simp)
    (by intro x hx; obtain ⟨y, hy, rfl⟩ := List.mem_map.mp hx; exact_mod_cast h2 y hy)
    (by rw [List.length_range, ← h3]; push_cast; rfl)
  refine ⟨e, ?_, ?_, by decide, by decide, by decide⟩
  · rw [hfac, List.length_range] at c
    have hpos : 0 < (sizes.map Nat.factorial).prod :=
      List.prod_pos fun x hx => by
        obtain ⟨y, _, rfl⟩ := List.mem_map.mp hx
        exact Nat.factorial_pos y
    exact (Nat.div_eq_of_eq_mul_left hpos (by rw [partitions, ← c])).symm
  · intro P hP
    obtain ⟨m1, m2⟩ := m P hP
    refine ⟨by rw [m1, hmap], m2, ?_⟩
    have hnd : P.flatten.Nodup := (m2.nodup_iff).mpr (List.nodup_range n)
    exact (List.nodup_flatten.mp hnd).2

theorem partitions_spec_witness :
    (partitions (List.range 4) ((([2, 2] : List Nat)).map fun s : Nat => (s : Int))).out.length =
      Nat.factorial 4 / (([2, 2] : List Nat).map Nat.factorial).prod :=
  (partitions_spec 4 [2, 2] (by decide) (by decide) (by decide)).2.1

/-- C3 counterexample: the size vector `[0, 2]` sums to the pool length `2`,
yet `partitions([1,2],[0,2])` throws a `RangeError` (from `combinations`)
and yields nothing, instead of yielding the claimed `2!/(0!·2!) = 1`
output. -/
theorem partitions_zero_size_counterexample :
    partitions ([1, 2] : List Nat) [(0 : Int), 2] = Trace.throw combinationsMsg ∧
    (0 : Int) + (2 + 0) = (([1, 2] : List Nat).length : Int) ∧
    (partitions ([1, 2] : List Nat) [(0 : Int), 2]).out.length ≠
      Nat.factorial 2 / (Nat.factorial 0 * Nat.factorial 2) := by
  refine ⟨by decide, by decide, by decide⟩

/-- C7 (confirmed): whenever the sizes do not sum to the pool length,
`partitions(pool, sizes)` ends in an error having yielded no partition at
all. -/
theorem partitions_sum_mismatch {α : Type u} (pool : List α) (sizes : List Int)
    (h1 : sizes ≠ []) (h2 : sizes.sum ≠ (pool.length : Int)) :
    (partitions pool sizes).out = [] ∧ (partitions pool sizes).err.isSome := by
  induction sizes generalizing pool with
  | nil => exact absurd rfl h1
  | cons s rest ih =>
    match rest with
    | [] =>
      have hs : s ≠ (pool.length : Int) := by simpa using h2
      rw [partitions, array_partitions, if_pos hs]
      exact ⟨rfl, rfl⟩
    | s' :: rest' =>
      rw [partitions, array_partitions]
      by_cases hs : s ≤ 0 ∨ (pool.length : Int) < s
      · have ht : array_combinations_unused pool s [] = Trace.throw combinationsMsg := by
          rw [array_combinations_unused.eq_def, if_pos hs]
        rw [ht, Trace.forIn_of_err_none _ _ (by rfl)]
        exact ⟨rfl, rfl⟩
      · have hcast : s = ((s.toNat : Nat) : Int) := by omega
        obtain ⟨ce, cl, cm⟩ :=
          array_combinations_unused_spec pool s.toNat [] (by omega) (by omega)
        rw [← hcast] at ce cl cm
        have hne : (array_combinations_unused pool s []).out ≠ [] := by
          intro hnil
          rw [hnil] at cl
          have := Nat.choose_pos (n := pool.length) (k := s.toNat) (by omega)
          simp at cl
          omega
        obtain ⟨cu, outs', houts⟩ := List.exists_cons_of_ne_nil hne
        obtain ⟨hc1, hc2⟩ := cm cu (by rw [houts]; exact List.mem_cons_self cu outs')
        have hc2' : (cu.1 ++ cu.2).Perm pool := by simpa using hc2
        have hulen : cu.2.length = pool.length - s.toNat := by
          have := hc2'.length_eq
          simp only [List.length_append, hc1] at this
          omega
        obtain ⟨i1, i2⟩ := ih cu.2 (by simp)
          (by simp only [List.sum_cons] at h2 ⊢; omega)
        rw [partitions] at i1 i2
        obtain ⟨e, he⟩ := Option.isSome_iff_exists.mp i2
        have hfc : ((array_partitions cu.2 (s' :: rest')).map fun p => cu.1 :: p).err
            = some e := he
        rw [Trace.forIn_of_err_some _ _
            (by rw [houts,
              Trace.bindList_cons_of_err
                (fun v => (array_partitions v.2 (s' :: rest')).map fun p => v.1 :: p)
                cu outs' hfc]),
          houts,
          Trace.bindList_cons_of_err
            (fun v => (array_partitions v.2 (s' :: rest')).map fun p => v.1 :: p)
            cu outs' hfc]
        refine ⟨?_, rfl⟩
        show ((array_partitions cu.2 (s' :: rest')).out.map fun p => cu.1 :: p) = []
        rw [i1]
        rfl

theorem partitions_sum_mismatch_witness :
    (partitions ([1, 2, 3] : List Nat) [(1 : Int), 1]).out = [] ∧
    (partitions ([1, 2, 3] : List Nat) [(1 : Int), 1]).err.isSome :=
  partitions_sum_mismatch [1, 2, 3] [(1 : Int), 1] (by decide) (by decide)

/-- C9 (confirmed): with at least two sizes whose first entry is not
positive, `partitions` throws the `RangeError` propagated from
`combinations` before any output, regardless of the sum of the sizes;
concretely `partitions([1,2],[0,2])` throws while the mirror image
`partitions([1,2],[2,0])` yields the single partition `[[1,2],[]]` without
error. -/
theorem partitions_nonpositive_first_size {α : Type u} (pool : List α)
    (s s' : Int) (rest : List Int) (_h0 : 1 ≤ pool.length) (hs : s ≤ 0) :
    partitions pool (s :: s' :: rest) = ⟨[], some combinationsMsg⟩ ∧
    partitions ([1, 2] : List Nat) [(0 : Int), 2] = Trace.throw combinationsMsg ∧
    partitions ([1, 2] : List Nat) [(2 : Int), 0] = Trace.done [[[1, 2], []]] := by
  refine ⟨?_, by decide, by decide⟩
  rw [partitions, array_partitions]
  have ht : array_combinations_unused pool s [] = Trace.throw combinationsMsg := by
    rw [array_combinations_unused.eq_def, if_pos (Or.inl hs)]
  rw [ht, Trace.forIn_of_err_none _ _ (by rfl)]
  rfl

theorem partitions_nonpositive_first_size_witness :
    partitions ([9] : List Nat) [(-1 : Int), 1] = ⟨[], some combinationsMsg⟩ :=
  (partitions_nonpositive_first_size [9] (-1) 1 [] (by decide) (by decide)).1

theorem combinations_error_iff_witness :
    combinations ([5] : List Nat) (2 : Int) = Trace.throw combinationsMsg ∧
    (combinations ([5] : List Nat) (1 : Int)).err = none :=
  ⟨(combinations_error_iff [5] 2).1 (by decide),
   (combinations_error_iff [5] 1).2 (by decide) (by decide)⟩

/-- C2 (code bug): the repository README documents `permutations(iterable, r)`
as yielding the `n!/(n−r)!` permutations of length `r` (e.g.
`permutations('ABCD', 2)` → 12 two-element outputs), but `permutations` in
`generators.js` accepts no `r` parameter and always enumerates full-length
permutations: on a 4-element pool it yields 24 outputs of length 4, not the
documented 12 of length 2.  The full case behaves as claimed:
`permutations([1,2,3])` yields exactly the six listed permutations in that
order. -/
theorem permutations_ignores_r :
    (permutations ([0, 1, 2, 3] : List Nat)).length = 24 ∧
    Nat.factorial 4 / Nat.factorial (4 - 2) = 12 ∧
    (∀ p ∈ permutations ([0, 1, 2, 3] : List Nat), p.length = 4) ∧
    permutations ([1, 2, 3] : List Nat) =
      [[1, 2, 3], [1, 3, 2], [2, 1, 3], [2, 3, 1], [3, 1, 2], [3, 2, 1]] := by
  refine ⟨by decide, by decide, by decide, by decide⟩

/-!
### Correctness of `take`
-/

theorem getElem?_cons_of_lt {α : Type u} (v : α) (src : List α) (i k : Nat) (h : k < i) :
    (v :: src)[i - k]? = src[i - (k + 1)]? := by
  have e : i - k = (i - (k + 1)) + 1 := by omega
  rw [e]
  simp

theorem takeGo_cons {α : Type u} (i : Nat) (v : α) (more : List (Nat × α)) (idx : Nat)
    (rest : List Nat) :
    takeGo ((i, v) :: more) idx rest =
      if i = idx then
        v ::
          match rest with
          | [] => []
          | idx' :: rest' => takeGo more idx' rest'
      else takeGo more idx rest := rfl

theorem takeGo_enumFrom_eq {α : Type u} :
    ∀ (src : List α) (k idx : Nat) (rest : List Nat),
      k ≤ idx → (idx :: rest).Pairwise (· < ·) →
      takeGo (src.enumFrom k) idx rest =
        (idx :: rest).filterMap fun i => src[i - k]? := by
  intro src
  induction src with
  | nil =>
    intro k idx rest _ _
    have : ∀ i ∈ idx :: rest, ([] : List α)[i - k]? = none := by
      intro i _
      simp
    rw [List.filterMap_eq_nil_iff.mpr (by intro i hi; rw [this i hi])]
    rfl
  | cons v src ih =>
    intro k idx rest hk hp
    rw [List.enumFrom_cons]
    have htail : ∀ i ∈ rest, idx < i := (List.pairwise_cons.mp hp).1
    by_cases hik : k = idx
    · subst hik
      rw [@List.filterMap_cons_some Nat α (fun i => (v :: src)[i - k]?) k rest v
        (by simp)]
      cases rest with
      | nil =>
        rw [takeGo_cons, if_pos rfl]
        rfl
      | cons idx' rest' =>
        rw [takeGo_cons, if_pos rfl]
        show v :: takeGo (src.enumFrom (k + 1)) idx' rest' =
          v :: List.filterMap (fun i => (v :: src)[i - k]?) (idx' :: rest')
        rw [ih (k + 1) idx' rest' (htail idx' (List.mem_cons_self idx' rest'))
          (List.pairwise_cons.mp hp).2]
        refine congrArg (fun l => v :: l) (List.filterMap_congr ?_)
        intro i hi
        exact (getElem?_cons_of_lt v src i k (htail i hi)).symm
    · have hki : k < idx := by omega
      rw [takeGo_cons, if_neg hik, ih (k + 1) idx rest (by omega) hp]
      apply List.filterMap_congr
      intro i hi
      have hlt : k < i := by
        rcases List.mem_cons.mp hi with rfl | hi'
        · exact hki
        · exact lt_trans hki (htail i hi')
      exact (getElem?_cons_of_lt v src i k hlt).symm

/-- C4 (corrected: `take` yields no "missing" sentinel — when the source is
exhausted before an index is reached, the generator simply returns, so that
index and all later ones produce nothing and `take` terminates as soon as
either sequence is exhausted; moreover duplicate indices are skipped, so the
index sequence must be strictly increasing, not merely non-decreasing): for
every strictly increasing index sequence, `take` yields exactly the source
elements at the in-range indices, in order; `take([a], [0,1,2])` yields `a`
and nothing else. -/
theorem take_spec {α : Type u} (src : List α) (idxs : List Nat)
    (h : idxs.Pairwise (· < ·)) :
    take src idxs = idxs.filterMap (fun i => src[i]?) ∧
    ∀ a : α, take [a] [0, 1, 2] = [a] := by
  constructor
  · match idxs, h with
    | [], _ => rfl
    | idx :: rest, h =>
      show takeGo (src.enumFrom 0) idx rest = _
      rw [takeGo_enumFrom_eq src 0 idx rest (Nat.zero_le idx) h]
      apply List.filterMap_congr
      intro i _
      simp
  · intro a
    rfl

theorem take_spec_witness :
    take ([10, 20, 30] : List Nat) [0, 2, 7] =
      [0, 2, 7].filterMap (fun i => ([10, 20, 30] : List Nat)[i]?) :=
  (take_spec [10, 20, 30] [0, 2, 7] (by decide)).1

/-- C4 counterexample: `take([a], [0,1,2])` yields only `a`: once the source
is exhausted no sentinel "missing" value is yielded for the remaining
indices (the claim predicts three outputs), and `take` terminates even
though the index sequence continues; also a duplicated (non-decreasing)
index is skipped rather than re-yielded. -/
theorem take_no_sentinel_counterexample :
    take ([10] : List Nat) [0, 1, 2] = [10] ∧
    (take ([10] : List Nat) [0, 1, 2]).length ≠ 3 ∧
    take ([10, 20] : List Nat) [0, 0] = [10] := by
  refine ⟨by decide, by decide, by decide⟩

/-!
### Correctness of `product`, `cycle` and `zip`
-/

/-- C5 (confirmed): for `k ≥ 1` sequences, `product` equals the spec's
recursive reference definition (singleton tuples for one sequence; each
element of the first sequence prefixed to every tuple of the product of the
rest, so the first coordinate varies slowest) and yields exactly
`∏|seq_i|` tuples. -/
theorem product_correct {α : Type u} (ls : List (List α)) (h : ls ≠ []) :
    product ls = productSpec ls ∧
    (product ls).length = (ls.map List.length).prod := by
  rw [product]
  induction ls with
  | nil => exact absurd rfl h
  | cons arr tail ih =>
    match tail with
    | [] =>
      refine ⟨rfl, ?_⟩
      simp [array_product]
    | t₀ :: ts =>
      obtain ⟨ih1, ih2⟩ := ih (by simp)
      constructor
      · rw [array_product, productSpec, ih1]
      · rw [array_product]
        rw [List.length_flatMap]
        have hmapc : (arr.map
              (List.length ∘ fun item => (array_product (t₀ :: ts)).map fun p => item :: p)) =
            arr.map fun _ => ((t₀ :: ts).map List.length).prod := by
          apply List.map_congr_left
          intro item _
          simp [Function.comp_def, ih2]
        rw [hmapc]
        simp [mul_comm]

theorem product_correct_witness :
    product ([[1, 2], [5, 6, 7]] : List (List Nat)) =
        productSpec ([[1, 2], [5, 6, 7]] : List (List Nat)) ∧
      (product ([[1, 2], [5, 6, 7]] : List (List Nat))).length =
        (([[1, 2], [5, 6, 7]] : List (List Nat)).map List.length).prod :=
  product_correct [[1, 2], [5, 6, 7]] (by decide)

theorem cycle_iterator_empty {α : Type u} :
    ∀ n, cycle (JsIterable.iterator ([] : List α)) n = [] := by
  intro n
  induction n with
  | zero => rfl
  | succ n ih => simpa [cycle, JsIterable.drain] using ih

/-- C8 (corrected: `cycle` does not materialize its argument — its own doc
comment says it "doesn't work with iterators"): for a replayable iterable,
`cycle(seq, t)` emits the full contents `t` times (output length
`t·|seq|`); but a single-use iterator is consumed by the first pass, so all
later passes add nothing and the output is the iterator's contents exactly
once. -/
theorem cycle_spec {α : Type u} (xs : List α) (t : Nat) :
    cycle (JsIterable.replayable xs) t = (List.replicate t xs).flatten ∧
    (cycle (JsIterable.replayable xs) t).length = t * xs.length ∧
    cycle (JsIterable.iterator xs) (t + 1) = xs := by
  have h1 : ∀ n, cycle (JsIterable.replayable xs) n = (List.replicate n xs).flatten := by
    intro n
    induction n with
    | zero => rfl
    | succ n ih => simp [cycle, JsIterable.drain, ih, List.replicate_succ]
  refine ⟨h1 t, ?_, ?_⟩
  · rw [h1 t]
    simp [List.length_flatten, List.map_replicate, List.sum_replicate, Nat.smul_one_eq_cast]
  · show xs ++ cycle (JsIterable.iterator []) t = xs
    rw [cycle_iterator_empty t, List.append_nil]

/-- C8 counterexample: the claim says `cycle(seq, 2)` of a single-use
iterator over three elements replays its pool twice (6 outputs); the code
yields the three remaining elements once. -/
theorem cycle_iterator_counterexample :
    cycle (JsIterable.iterator ([1, 2, 3] : List Nat)) 2 = [1, 2, 3] ∧
    (cycle (JsIterable.iterator ([1, 2, 3] : List Nat)) 2).length ≠ 2 * 3 := by
  refine ⟨by decide, by decide⟩

/-- C10 (confirmed): `zip()` of zero sequences never terminates: at every
step the exhaustion check over no cursors passes vacuously, so after any
number `fuel` of loop iterations it has yielded `fuel` empty tuples and has
not returned. -/
theorem zip_no_args_never_terminates (α : Type u) (fuel : Nat) :
    zipRun ([] : List (List α)) fuel = (List.replicate fuel [], false) := by
  induction fuel with
  | zero => rfl
  | succ n ih => simp [zipRun, nexts, ih, List.replicate_succ]

end Generators
